import Mathlib

/-!
Verification of the core business logic of the `oficina` repair-shop
application: the service-order totals calculator (`calculate_totals` in
`src/utils.py`), the sequential order-number generator
(`generate_os_number` in `src/models.py`), and the surcharge clamp
performed by the request handlers (`src/routes.py`).

Currency amounts and percentages are modelled as rational numbers; the
source works with Python numbers and the specification reasons about them
as exact arithmetic.
-/

namespace Oficina

/-- The financial fields of a `ServiceOrder` (src/models.py) that
`calculate_totals` reads. -/
structure ServiceOrderFinancials where
  material_total : ℚ
  labor_total : ℚ
  general_budget : ℚ
  discount_type : String
  discount_value : ℚ
  surcharge_percentage : ℚ
  deriving Repr

/-- `base_total` after the general-budget adjustment: `material + labor`,
replaced by `general_budget` when the latter is greater
(src/utils.py, lines 14-18). -/
def adjusted_base (so : ServiceOrderFinancials) : ℚ :=
  let base_total := so.material_total + so.labor_total
  if so.general_budget > base_total then so.general_budget else base_total

/-- The discount amount: percentage of the adjusted base, a fixed amount,
or zero for `none` / anything unrecognized (src/utils.py, lines 21-26). -/
def discount_amount (so : ServiceOrderFinancials) : ℚ :=
  if so.discount_type = "percentage" then
    adjusted_base so * (so.discount_value / 100)
  else if so.discount_type = "fixed" then
    so.discount_value
  else
    0

/-- `final_total` before the floor at zero: the discounted total plus the
surcharge taken on it (src/utils.py, lines 28-33). -/
def final_before_floor (so : ServiceOrderFinancials) : ℚ :=
  let total_after_discount := adjusted_base so - discount_amount so
  let surcharge_amount := total_after_discount * (so.surcharge_percentage / 100)
  total_after_discount + surcharge_amount

/-- `calculate_totals` (src/utils.py, lines 11-35): discount, then
surcharge, then floor the result at zero. -/
def calculate_totals (so : ServiceOrderFinancials) : ℚ :=
  max (final_before_floor so) 0

/-- The spec's functional contract `compute_final_total`, applied to the
fields positionally. -/
def compute_final_total (material_total labor_total general_budget : ℚ)
    (discount_type : String) (discount_value surcharge_percentage : ℚ) : ℚ :=
  calculate_totals
    { material_total := material_total
      labor_total := labor_total
      general_budget := general_budget
      discount_type := discount_type
      discount_value := discount_value
      surcharge_percentage := surcharge_percentage }

/-- The surcharge value stored on a service order by `create_os`
(src/routes.py, line 121) and `edit_os` (src/routes.py, line 209):
`min(float(request.form.get(..., 0)), 5.0)`. -/
def stored_surcharge (submitted : ℚ) : ℚ :=
  min submitted 5

/-! ### Order-number generator (`generate_os_number`, src/models.py)

Python strings are modelled as lists of characters; the database's
`ORDER BY os_number DESC` compares strings byte by byte, modelled as
lexicographic order on character codes. -/

/-- Decimal digit characters of `n`, most significant first, with `fuel`
bounding the recursion depth. -/
def natDigitsAux : Nat → Nat → List Char
  | 0, _ => []
  | fuel + 1, n =>
    if n < 10 then [Nat.digitChar n]
    else natDigitsAux fuel (n / 10) ++ [Nat.digitChar (n % 10)]

/-- Decimal digit characters of `n`, most significant first (Python's
rendering of a non-negative integer in an f-string). -/
def natDigits (n : Nat) : List Char :=
  natDigitsAux (n + 1) n

/-- Python's `f'{n:04d}'`: decimal digits zero-padded to width at least
four. -/
def pad4 (n : Nat) : List Char :=
  List.replicate (4 - (natDigits n).length) '0' ++ natDigits n

/-- The prefix `OS-{current_year}-` shared by one year's order numbers. -/
def osStem (year : Nat) : List Char :=
  'O' :: 'S' :: '-' :: (natDigits year ++ ['-'])

/-- `startsWith p s`: `p` is a prefix of `s` (the
`LIKE 'OS-{current_year}-%'` filter). -/
def startsWith : List Char → List Char → Bool
  | [], _ => true
  | _ :: _, [] => false
  | p :: ps, s :: ss => if p = s then startsWith ps ss else false

/-- Byte-lexicographic strict comparison of strings: the order the
database uses to sort `os_number`. -/
def charsLt : List Char → List Char → Bool
  | [], [] => false
  | [], _ :: _ => true
  | _ :: _, [] => false
  | a :: as, b :: bs =>
    if a.toNat < b.toNat then true
    else if a.toNat = b.toNat then charsLt as bs
    else false

/-- The greatest element of a list of strings in byte-lexicographic order
(`ORDER BY os_number DESC ... first()`); `none` on the empty list. -/
def maxChars : List (List Char) → Option (List Char)
  | [] => none
  | s :: rest =>
    match maxChars rest with
    | none => some s
    | some m => some (if charsLt s m then m else s)

/-- Python's `split('-')`. -/
def splitDash : List Char → List (List Char)
  | [] => [[]]
  | c :: cs =>
    if c = '-' then [] :: splitDash cs
    else
      match splitDash cs with
      | [] => [[c]]
      | g :: gs => (c :: g) :: gs

/-- Is `c` a decimal digit (character codes 48-57)? -/
def isDig (c : Char) : Bool :=
  decide (48 ≤ c.toNat) && decide (c.toNat ≤ 57)

/-- Python's `int(...)` on a string of decimal digits; `none` (an
exception in the source) when the string is empty or has a non-digit. -/
def parseNat (cs : List Char) : Option Nat :=
  if cs ≠ [] ∧ cs.all isDig then
    some (cs.foldl (fun acc c => 10 * acc + (c.toNat - 48)) 0)
  else none

/-- `generate_os_number` (src/models.py, lines 120-136): the caller
supplies the current year (the clock in the source) and the issued order
numbers (the `ServiceOrder` table in the source). Filter to the current
year's prefix, take the greatest in the database's string order, parse
the segment after the last `-` and add one; `none` models Python's `int`
raising. -/
def generate_os_number (current_year : Nat) (issued : List (List Char)) :
    Option (List Char) :=
  let matching := issued.filter (fun s => startsWith (osStem current_year) s)
  match maxChars matching with
  | none => some (osStem current_year ++ pad4 1)
  | some last_os =>
    match parseNat ((splitDash last_os).getLastD []) with
    | none => none
    | some last_number => some (osStem current_year ++ pad4 (last_number + 1))

/-- The issued numbers of year `y` after its first `n` orders, each issued
one at a time starting from sequence 1. -/
def issuedUpTo (y n : Nat) : List (List Char) :=
  (List.range n).map (fun i => osStem y ++ pad4 (i + 1))

/-- The numeric value of a digit string (the fold inside `parseNat`). -/
def valDigits (cs : List Char) : Nat :=
  cs.foldl (fun acc c => 10 * acc + (c.toNat - 48)) 0

lemma natDigitsAux_fuel (n : Nat) :
    ∀ f g, n < f → n < g → natDigitsAux f n = natDigitsAux g n := by
  induction n using Nat.strong_induction_on with
  | _ n ih =>
    intro f g hf hg
    cases f with
    | zero => omega
    | succ f' =>
      cases g with
      | zero => omega
      | succ g' =>
        simp only [natDigitsAux]
        split
        · rfl
        · rename_i h
          rw [ih (n / 10) (by omega) f' g' (by omega) (by omega)]

lemma natDigits_eq (n : Nat) :
    natDigits n =
      if n < 10 then [Nat.digitChar n]
      else natDigits (n / 10) ++ [Nat.digitChar (n % 10)] := by
  cases Nat.lt_or_ge n 10 with
  | inl h =>
    rw [if_pos h]
    show natDigitsAux (n + 1) n = _
    simp only [natDigitsAux, if_pos h]
  | inr h =>
    rw [if_neg (by omega)]
    show natDigitsAux (n + 1) n = _
    have hstep : natDigitsAux (n + 1) n
        = natDigitsAux n (n / 10) ++ [Nat.digitChar (n % 10)] := by
      simp only [natDigitsAux]
      rw [if_neg (by omega)]
    rw [hstep]
    unfold natDigits
    congr 1
    exact natDigitsAux_fuel (n / 10) n (n / 10 + 1) (by omega) (by omega)

lemma digitChar_toNat (m : Nat) (h : m < 10) : (Nat.digitChar m).toNat = 48 + m := by
  interval_cases m <;> decide

lemma isDig_digitChar (m : Nat) (h : m < 10) : isDig (Nat.digitChar m) = true := by
  interval_cases m <;> decide

lemma isDig_ne_dash (c : Char) (h : isDig c = true) : c ≠ '-' := by
  intro hc
  subst hc
  simp [isDig] at h

lemma natDigits_ne_nil (n : Nat) : natDigits n ≠ [] := by
  rw [natDigits_eq]
  split <;> simp

lemma natDigits_all_dig (n : Nat) : ∀ c ∈ natDigits n, isDig c = true := by
  induction n using Nat.strong_induction_on with
  | _ n ih =>
    rw [natDigits_eq]
    split
    · rename_i h
      intro c hc
      rw [List.mem_singleton] at hc
      subst hc
      exact isDig_digitChar n h
    · rename_i h
      intro c hc
      rw [List.mem_append] at hc
      rcases hc with hc | hc
      · exact ih (n / 10) (by omega) c hc
      · rw [List.mem_singleton] at hc
        subst hc
        exact isDig_digitChar (n % 10) (by omega)

lemma natDigits_length_le (k : Nat) :
    ∀ n, n < 10 ^ k → 1 ≤ k → (natDigits n).length ≤ k := by
  induction k with
  | zero => omega
  | succ k ihk =>
    intro n hn _
    rw [natDigits_eq]
    split
    · simp
    · rename_i h
      rw [List.length_append]
      have h10 : n / 10 < 10 ^ k := by
        have := Nat.pow_succ 10 k
        omega
      have hk1 : 1 ≤ k := by
        by_contra hk
        have : k = 0 := by omega
        subst this
        simp at hn
        omega
      have := ihk (n / 10) h10 hk1
      simp only [List.length_singleton]
      omega

lemma valDigits_acc (cs : List Char) :
    ∀ a, cs.foldl (fun acc c => 10 * acc + (c.toNat - 48)) a
      = a * 10 ^ cs.length + valDigits cs := by
  induction cs with
  | nil => intro a; simp [valDigits]
  | cons c cs ih =>
    intro a
    simp only [List.foldl_cons, List.length_cons, valDigits] at *
    rw [ih (10 * a + (c.toNat - 48)), ih (10 * 0 + (c.toNat - 48))]
    ring

lemma valDigits_cons (c : Char) (cs : List Char) :
    valDigits (c :: cs) = (c.toNat - 48) * 10 ^ cs.length + valDigits cs := by
  simp only [valDigits, List.foldl_cons]
  rw [valDigits_acc cs (10 * 0 + (c.toNat - 48))]
  simp only [valDigits]
  ring

lemma valDigits_lt (cs : List Char) (h : ∀ c ∈ cs, isDig c = true) :
    valDigits cs < 10 ^ cs.length := by
  induction cs with
  | nil => simp [valDigits]
  | cons c cs ih =>
    have hc : isDig c = true := h c (List.mem_cons_self c cs)
    have hd : c.toNat - 48 ≤ 9 := by
      simp only [isDig, Bool.and_eq_true, decide_eq_true_eq] at hc
      omega
    have hrest := ih (fun x hx => h x (List.mem_cons_of_mem c hx))
    rw [valDigits_cons, List.length_cons, Nat.pow_succ]
    calc (c.toNat - 48) * 10 ^ cs.length + valDigits cs
        < (c.toNat - 48) * 10 ^ cs.length + 10 ^ cs.length := by omega
      _ = ((c.toNat - 48) + 1) * 10 ^ cs.length := by ring
      _ ≤ 10 * 10 ^ cs.length := by
          apply Nat.mul_le_mul_right
          omega
      _ = 10 ^ cs.length * 10 := by ring

lemma valDigits_append_singleton (xs : List Char) (c : Char) :
    valDigits (xs ++ [c]) = 10 * valDigits xs + (c.toNat - 48) := by
  simp [valDigits, List.foldl_append]

lemma valDigits_natDigits (n : Nat) : valDigits (natDigits n) = n := by
  induction n using Nat.strong_induction_on with
  | _ n ih =>
    rw [natDigits_eq]
    split
    · rename_i h
      simp [valDigits, digitChar_toNat n h]
    · rename_i h
      rw [valDigits_append_singleton, ih (n / 10) (by omega),
        digitChar_toNat (n % 10) (by omega)]
      omega

lemma valDigits_replicate_zero (k : Nat) (cs : List Char) :
    valDigits (List.replicate k '0' ++ cs) = valDigits cs := by
  induction k with
  | zero => simp
  | succ k ih =>
    simp only [List.replicate_succ, List.cons_append, valDigits, List.foldl_cons]
    have : 10 * 0 + (('0' : Char).toNat - 48) = 0 := by decide
    rw [this]
    exact ih

lemma pad4_ne_nil (n : Nat) : pad4 n ≠ [] := by
  unfold pad4
  intro h
  rw [List.append_eq_nil] at h
  exact natDigits_ne_nil n h.2

lemma pad4_all_dig (n : Nat) : ∀ c ∈ pad4 n, isDig c = true := by
  intro c hc
  unfold pad4 at hc
  rw [List.mem_append] at hc
  rcases hc with hc | hc
  · rw [List.eq_of_mem_replicate hc]
    decide
  · exact natDigits_all_dig n c hc

lemma pad4_no_dash (n : Nat) : ∀ c ∈ pad4 n, c ≠ '-' :=
  fun c hc => isDig_ne_dash c (pad4_all_dig n c hc)

lemma valDigits_pad4 (n : Nat) : valDigits (pad4 n) = n := by
  unfold pad4
  rw [valDigits_replicate_zero, valDigits_natDigits]

lemma parseNat_pad4 (n : Nat) : parseNat (pad4 n) = some n := by
  unfold parseNat
  rw [if_pos ⟨pad4_ne_nil n, List.all_eq_true.mpr (pad4_all_dig n)⟩]
  exact congrArg some (valDigits_pad4 n)

lemma pad4_inj (a b : Nat) (h : pad4 a = pad4 b) : a = b := by
  have := valDigits_pad4 a
  rw [h, valDigits_pad4] at this
  omega

lemma pad4_length_ge (n : Nat) : 4 ≤ (pad4 n).length := by
  unfold pad4
  rw [List.length_append, List.length_replicate]
  omega

lemma pad4_length_eq (n : Nat) (h : n ≤ 9999) : (pad4 n).length = 4 := by
  have hlen : (natDigits n).length ≤ 4 :=
    natDigits_length_le 4 n (by omega) (by omega)
  unfold pad4
  rw [List.length_append, List.length_replicate]
  omega

lemma char_toNat_inj (a b : Char) (h : a.toNat = b.toNat) : a = b :=
  Char.ext_iff.mpr (UInt32.toNat.inj h)

lemma charsLt_cons (x y : Char) (xs ys : List Char) :
    charsLt (x :: xs) (y :: ys) = true ↔
      x.toNat < y.toNat ∨ (x.toNat = y.toNat ∧ charsLt xs ys = true) := by
  simp only [charsLt]
  split
  · rename_i h
    simp [h]
  · rename_i h
    split
    · rename_i h2
      simp [h, h2]
    · rename_i h2
      simp [h, h2]

lemma charsLt_irrefl (a : List Char) : charsLt a a = false := by
  induction a with
  | nil => rfl
  | cons c cs ih =>
    rw [Bool.eq_false_iff]
    intro h
    rcases (charsLt_cons c c cs cs).mp h with h1 | ⟨_, h1⟩
    · omega
    · rw [ih] at h1
      exact Bool.false_ne_true h1

lemma charsLt_trans (a : List Char) :
    ∀ b c, charsLt a b = true → charsLt b c = true → charsLt a c = true := by
  induction a with
  | nil =>
    intro b c hab hbc
    cases b with
    | nil => simp [charsLt] at hab
    | cons y ys =>
      cases c with
      | nil => simp [charsLt] at hbc
      | cons z zs => simp [charsLt]
  | cons x xs ih =>
    intro b c hab hbc
    cases b with
    | nil => simp [charsLt] at hab
    | cons y ys =>
      cases c with
      | nil => simp [charsLt] at hbc
      | cons z zs =>
        rw [charsLt_cons] at hab hbc ⊢
        rcases hab with h1 | ⟨h1, h1r⟩ <;> rcases hbc with h2 | ⟨h2, h2r⟩
        · exact Or.inl (by omega)
        · exact Or.inl (by omega)
        · exact Or.inl (by omega)
        · exact Or.inr ⟨by omega, ih ys zs h1r h2r⟩

lemma charsLt_asymm (a b : List Char)
    (h1 : charsLt a b = true) (h2 : charsLt b a = true) : False := by
  have h := charsLt_trans a b a h1 h2
  rw [charsLt_irrefl] at h
  exact Bool.false_ne_true h

lemma charsLt_total (a : List Char) :
    ∀ b, a = b ∨ charsLt a b = true ∨ charsLt b a = true := by
  induction a with
  | nil =>
    intro b
    cases b with
    | nil => exact Or.inl rfl
    | cons y ys => exact Or.inr (Or.inl (by simp [charsLt]))
  | cons x xs ih =>
    intro b
    cases b with
    | nil => exact Or.inr (Or.inr (by simp [charsLt]))
    | cons y ys =>
      rcases Nat.lt_trichotomy x.toNat y.toNat with h | h | h
      · exact Or.inr (Or.inl ((charsLt_cons x y xs ys).mpr (Or.inl h)))
      · have hxy : x = y := char_toNat_inj x y h
        subst hxy
        rcases ih ys with h2 | h2 | h2
        · exact Or.inl (by rw [h2])
        · exact Or.inr (Or.inl ((charsLt_cons x x xs ys).mpr (Or.inr ⟨rfl, h2⟩)))
        · exact Or.inr (Or.inr ((charsLt_cons x x ys xs).mpr (Or.inr ⟨rfl, h2⟩)))
      · exact Or.inr (Or.inr ((charsLt_cons y x ys xs).mpr (Or.inl h)))

lemma charsLt_append_left (s a b : List Char) :
    charsLt (s ++ a) (s ++ b) = charsLt a b := by
  induction s with
  | nil => rfl
  | cons c cs ih => simp [charsLt, ih]

lemma charsLt_iff_valDigits (a : List Char) :
    ∀ b, a.length = b.length → (∀ c ∈ a, isDig c = true) →
      (∀ c ∈ b, isDig c = true) →
      (charsLt a b = true ↔ valDigits a < valDigits b) := by
  induction a with
  | nil =>
    intro b hlen _ _
    cases b with
    | nil => simp [charsLt]
    | cons y ys => simp at hlen
  | cons x xs ih =>
    intro b hlen ha hb
    cases b with
    | nil => simp at hlen
    | cons y ys =>
      have hlen' : xs.length = ys.length := by simpa using hlen
      have hax : isDig x = true := ha x (List.mem_cons_self x xs)
      have hay : isDig y = true := hb y (List.mem_cons_self y ys)
      have hbx : 48 ≤ x.toNat ∧ x.toNat ≤ 57 := by
        simp only [isDig, Bool.and_eq_true, decide_eq_true_eq] at hax
        exact hax
      have hby : 48 ≤ y.toNat ∧ y.toNat ≤ 57 := by
        simp only [isDig, Bool.and_eq_true, decide_eq_true_eq] at hay
        exact hay
      have hvx : valDigits xs < 10 ^ ys.length := by
        rw [← hlen']
        exact valDigits_lt xs (fun c hc => ha c (List.mem_cons_of_mem x hc))
      have hvy : valDigits ys < 10 ^ ys.length := by
        exact valDigits_lt ys (fun c hc => hb c (List.mem_cons_of_mem y hc))
      have hih := ih ys hlen' (fun c hc => ha c (List.mem_cons_of_mem x hc))
        (fun c hc => hb c (List.mem_cons_of_mem y hc))
      rw [charsLt_cons, valDigits_cons, valDigits_cons, hlen']
      constructor
      · rintro (h | ⟨heq, hrec⟩)
        · have hd : (x.toNat - 48) + 1 ≤ y.toNat - 48 := by omega
          calc (x.toNat - 48) * 10 ^ ys.length + valDigits xs
              < ((x.toNat - 48) + 1) * 10 ^ ys.length := by
                have := Nat.one_le_two_pow (n := 1)
                have hp : 0 < 10 ^ ys.length := Nat.pos_pow_of_pos _ (by omega)
                nlinarith [hvx]
            _ ≤ (y.toNat - 48) * 10 ^ ys.length :=
                Nat.mul_le_mul_right _ hd
            _ ≤ (y.toNat - 48) * 10 ^ ys.length + valDigits ys :=
                Nat.le_add_right _ _
        · rw [heq]
          have := hih.mp hrec
          omega
      · intro hv
        rcases Nat.lt_trichotomy x.toNat y.toNat with h | h | h
        · exact Or.inl h
        · refine Or.inr ⟨h, hih.mpr ?_⟩
          rw [h] at hv
          omega
        · exfalso
          have hd : (y.toNat - 48) + 1 ≤ x.toNat - 48 := by omega
          have : (y.toNat - 48) * 10 ^ ys.length + valDigits ys
              < (x.toNat - 48) * 10 ^ ys.length + valDigits xs := by
            calc (y.toNat - 48) * 10 ^ ys.length + valDigits ys
                < ((y.toNat - 48) + 1) * 10 ^ ys.length := by
                  have hp : 0 < 10 ^ ys.length := Nat.pos_pow_of_pos _ (by omega)
                  nlinarith [hvy]
              _ ≤ (x.toNat - 48) * 10 ^ ys.length :=
                  Nat.mul_le_mul_right _ hd
              _ ≤ (x.toNat - 48) * 10 ^ ys.length + valDigits xs :=
                  Nat.le_add_right _ _
          omega

lemma maxChars_eq_none (l : List (List Char)) : maxChars l = none ↔ l = [] := by
  cases l with
  | nil => simp [maxChars]
  | cons s rest =>
    simp only [maxChars]
    cases maxChars rest <;> simp

lemma maxChars_isSome (l : List (List Char)) (h : l ≠ []) :
    (maxChars l).isSome = true := by
  cases hl : maxChars l with
  | none => exact absurd ((maxChars_eq_none l).mp hl) h
  | some m => rfl

lemma maxChars_spec (l : List (List Char)) :
    ∀ m, maxChars l = some m →
      m ∈ l ∧ ∀ x ∈ l, x = m ∨ charsLt x m = true := by
  induction l with
  | nil =>
    intro m h
    simp [maxChars] at h
  | cons s rest ih =>
    intro m h
    simp only [maxChars] at h
    cases hrest : maxChars rest with
    | none =>
      have hre : rest = [] := (maxChars_eq_none rest).mp hrest
      rw [hrest] at h
      have hm : s = m := by simpa using h
      subst hm
      subst hre
      exact ⟨List.mem_cons_self s [], by
        intro x hx
        rw [List.mem_singleton] at hx
        exact Or.inl hx⟩
    | some r =>
      rw [hrest] at h
      have h' : some (if charsLt s r = true then r else s) = some m := h
      obtain ⟨hrmem, hrdom⟩ := ih r hrest
      by_cases hc : charsLt s r = true
      · rw [if_pos hc] at h'
        have hm : r = m := by simpa using h'
        subst hm
        refine ⟨List.mem_cons_of_mem s hrmem, ?_⟩
        intro x hx
        rcases List.mem_cons.mp hx with hx | hx
        · subst hx
          exact Or.inr hc
        · exact hrdom x hx
      · rw [if_neg hc] at h'
        have hm : s = m := by simpa using h'
        subst hm
        refine ⟨List.mem_cons_self s rest, ?_⟩
        intro x hx
        rcases List.mem_cons.mp hx with hx | hx
        · exact Or.inl hx
        · rcases charsLt_total s r with he | hlt | hgt
          · subst he
            exact hrdom x hx
          · exact absurd hlt hc
          · rcases hrdom x hx with hx2 | hx2
            · subst hx2
              exact Or.inr hgt
            · exact Or.inr (charsLt_trans x r s hx2 hgt)

lemma maxChars_eq_of_max (l : List (List Char)) (m : List Char)
    (hm : m ∈ l) (hdom : ∀ x ∈ l, x = m ∨ charsLt x m = true) :
    maxChars l = some m := by
  have hne : l ≠ [] := by
    intro h
    subst h
    simp at hm
  obtain ⟨r, hr⟩ := Option.isSome_iff_exists.mp (maxChars_isSome l hne)
  obtain ⟨hrmem, hrdom⟩ := maxChars_spec l r hr
  rcases hdom r hrmem with h | h
  · rw [hr, h]
  · rcases hrdom m hm with h2 | h2
    · rw [hr, h2]
    · exact absurd h2 (fun h2 => charsLt_asymm r m h h2)

lemma startsWith_append (p t : List Char) : startsWith p (p ++ t) = true := by
  induction p with
  | nil => rfl
  | cons c cs ih => simp [startsWith, ih]

lemma splitDash_ne_nil (s : List Char) : splitDash s ≠ [] := by
  cases s with
  | nil => simp [splitDash]
  | cons c cs =>
    simp only [splitDash]
    split
    · simp
    · split <;> simp

lemma splitDash_no_dash (t : List Char) (h : ∀ c ∈ t, c ≠ '-') :
    splitDash t = [t] := by
  induction t with
  | nil => rfl
  | cons c cs ih =>
    have hc : c ≠ '-' := h c (List.mem_cons_self c cs)
    have hrest := ih (fun x hx => h x (List.mem_cons_of_mem c hx))
    simp only [splitDash]
    rw [if_neg hc, hrest]

lemma two_le_splitDash_length (s : List Char) (h : '-' ∈ s) :
    2 ≤ (splitDash s).length := by
  induction s with
  | nil => simp at h
  | cons c cs ih =>
    simp only [splitDash]
    by_cases hc : c = '-'
    · rw [if_pos hc]
      have h1 : 0 < (splitDash cs).length :=
        List.length_pos.mpr (splitDash_ne_nil cs)
      simp only [List.length_cons]
      omega
    · rw [if_neg hc]
      have hmem : '-' ∈ cs := by
        rcases List.mem_cons.mp h with h1 | h1
        · exact absurd h1.symm hc
        · exact h1
      have h2 := ih hmem
      cases hsc : splitDash cs with
      | nil => exact absurd hsc (splitDash_ne_nil cs)
      | cons g gs =>
        rw [hsc] at h2
        simp only [List.length_cons] at h2 ⊢
        omega

lemma getLastD_cons_eq {α : Type} (a : α) (l : List α) (d : α) :
    (a :: l).getLastD d = l.getLastD a := by
  cases l <;> rfl

lemma getLastD_irrel {α : Type} (l : List α) (h : l ≠ []) (d e : α) :
    l.getLastD d = l.getLastD e := by
  cases l with
  | nil => exact absurd rfl h
  | cons a t => rw [getLastD_cons_eq, getLastD_cons_eq]

lemma splitDash_getLastD (xs : List Char) :
    ∀ t, (∀ c ∈ t, c ≠ '-') →
      (splitDash (xs ++ '-' :: t)).getLastD [] = t := by
  induction xs with
  | nil =>
    intro t ht
    rw [List.nil_append]
    rw [show splitDash ('-' :: t) = [] :: splitDash t from by simp [splitDash]]
    rw [splitDash_no_dash t ht, getLastD_cons_eq, getLastD_cons_eq]
    rfl
  | cons c cs ih =>
    intro t ht
    rw [List.cons_append]
    simp only [splitDash]
    by_cases hc : c = '-'
    · rw [if_pos hc, getLastD_cons_eq]
      exact ih t ht
    · rw [if_neg hc]
      have hmem : '-' ∈ cs ++ '-' :: t := by simp
      have hlen := two_le_splitDash_length _ hmem
      cases hsc : splitDash (cs ++ '-' :: t) with
      | nil => exact absurd hsc (splitDash_ne_nil _)
      | cons g gs =>
        have hgs : gs ≠ [] := by
          rw [hsc] at hlen
          simp only [List.length_cons] at hlen
          intro hnil
          subst hnil
          simp at hlen
        rw [getLastD_cons_eq, getLastD_irrel gs hgs (c :: g) g]
        have hih := ih t ht
        rw [hsc, getLastD_cons_eq] at hih
        exact hih

lemma osStem_append (y : Nat) (cs : List Char) :
    osStem y ++ cs = ('O' :: 'S' :: '-' :: natDigits y) ++ '-' :: cs := by
  simp [osStem]

lemma trailing_of_osStem (y m : Nat) :
    (splitDash (osStem y ++ pad4 m)).getLastD [] = pad4 m := by
  rw [osStem_append]
  exact splitDash_getLastD _ (pad4 m) (pad4_no_dash m)

lemma charsLt_stem_pad4 (y i j : Nat) (hij : i < j) (hj : j ≤ 9999) :
    charsLt (osStem y ++ pad4 i) (osStem y ++ pad4 j) = true := by
  rw [charsLt_append_left]
  refine (charsLt_iff_valDigits (pad4 i) (pad4 j) ?_ (pad4_all_dig i)
    (pad4_all_dig j)).mpr ?_
  · rw [pad4_length_eq i (by omega), pad4_length_eq j hj]
  · rw [valDigits_pad4, valDigits_pad4]
    exact hij

lemma stem_pad4_inj (y a b : Nat)
    (h : osStem y ++ pad4 a = osStem y ++ pad4 b) : a = b :=
  pad4_inj a b (List.append_cancel_left h)

lemma mem_issuedUpTo (y n : Nat) (x : List Char) :
    x ∈ issuedUpTo y n ↔ ∃ i, i < n ∧ x = osStem y ++ pad4 (i + 1) := by
  simp only [issuedUpTo, List.mem_map, List.mem_range]
  constructor
  · rintro ⟨i, hi, rfl⟩
    exact ⟨i, hi, rfl⟩
  · rintro ⟨i, hi, rfl⟩
    exact ⟨i, hi, rfl⟩

lemma filter_issuedUpTo (y n : Nat) :
    (issuedUpTo y n).filter (fun s => startsWith (osStem y) s)
      = issuedUpTo y n := by
  apply List.filter_eq_self.mpr
  intro x hx
  obtain ⟨i, _, rfl⟩ := (mem_issuedUpTo y n x).mp hx
  exact startsWith_append _ _

lemma maxChars_issuedUpTo (y n : Nat) (h1 : 1 ≤ n) (h2 : n ≤ 9999) :
    maxChars (issuedUpTo y n) = some (osStem y ++ pad4 n) := by
  apply maxChars_eq_of_max
  · refine (mem_issuedUpTo y n _).mpr ⟨n - 1, by omega, ?_⟩
    have he : n - 1 + 1 = n := by omega
    rw [he]
  · intro x hx
    obtain ⟨i, hi, rfl⟩ := (mem_issuedUpTo y n x).mp hx
    by_cases he : i + 1 = n
    · exact Or.inl (by rw [he])
    · exact Or.inr (charsLt_stem_pad4 y (i + 1) n (by omega) h2)

lemma generate_issuedUpTo (y n : Nat) (hn : n ≤ 9999) :
    generate_os_number y (issuedUpTo y n)
      = some (osStem y ++ pad4 (n + 1)) := by
  cases n with
  | zero =>
    have h0 : issuedUpTo y 0 = [] := by simp [issuedUpTo]
    rw [h0]
    rfl
  | succ m =>
    simp only [generate_os_number, filter_issuedUpTo,
      maxChars_issuedUpTo y (m + 1) (by omega) hn, trailing_of_osStem,
      parseNat_pad4]

/-! ### Concurrent order-number allocation

`ServiceOrder.os_number` is declared `unique=True` (src/models.py,
line 52); the database engine that enforces the constraint is not part of
`src/`, so its behaviour is modelled from the spec (§5: a uniqueness
constraint on the identifier as a backstop). -/

/-- The progress of one allocate-and-persist request: not started yet,
holding a computed identifier, committed with its identifier, or failed
(its insert hit the uniqueness constraint). -/
inductive AllocPhase where
  | start : AllocPhase
  | computed : List Char → AllocPhase
  | succeeded : List Char → AllocPhase
  | failed : AllocPhase
  deriving DecidableEq

/-- Two in-flight allocate-and-persist requests sharing the table of
issued order numbers. -/
structure AllocSystem where
  db : List (List Char)
  left : AllocPhase
  right : AllocPhase
  deriving DecidableEq

/-- Modelled from the spec: one step of a single allocate-and-persist
request. Computing the next number (`generate_os_number` over the current
table) and inserting the row are separate steps, so two requests can
interleave; the insert enforces the database's uniqueness constraint on
`os_number` (`unique=True`, src/models.py, line 52): inserting an
identifier already present fails instead of committing. -/
def stepAlloc (year : Nat) (db : List (List Char)) :
    AllocPhase → AllocPhase × List (List Char)
  | .start =>
    match generate_os_number year db with
    | some id => (.computed id, db)
    | none => (.failed, db)
  | .computed id =>
    if id ∈ db then (.failed, db) else (.succeeded id, id :: db)
  | ph => (ph, db)

/-- One scheduling step of the two-request system: `true` steps the left
request, `false` the right. -/
def stepSys (year : Nat) : Bool → AllocSystem → AllocSystem
  | true, s =>
    { db := (stepAlloc year s.db s.left).2,
      left := (stepAlloc year s.db s.left).1, right := s.right }
  | false, s =>
    { db := (stepAlloc year s.db s.right).2,
      left := s.left, right := (stepAlloc year s.db s.right).1 }

/-- Run the two requests under an arbitrary interleaving. -/
def runAlloc (year : Nat) : List Bool → AllocSystem → AllocSystem
  | [], s => s
  | b :: sched, s => runAlloc year sched (stepSys year b s)

/-- Safety invariant: a committed identifier is recorded in the table,
and the two requests never commit the same identifier. -/
def AllocInv (s : AllocSystem) : Prop :=
  (∀ a, s.left = .succeeded a → a ∈ s.db) ∧
  (∀ b, s.right = .succeeded b → b ∈ s.db) ∧
  (∀ a b, s.left = .succeeded a → s.right = .succeeded b → a ≠ b)

lemma allocInv_stepAlloc_other (year : Nat) (db : List (List Char))
    (p : AllocPhase) : ∀ x ∈ db, x ∈ (stepAlloc year db p).2 := by
  intro x hx
  cases p with
  | start =>
    cases hgen : generate_os_number year db <;>
      simp only [stepAlloc, hgen] <;> exact hx
  | computed id =>
    simp only [stepAlloc]
    split
    · exact hx
    · exact List.mem_cons_of_mem _ hx
  | succeeded a => exact hx
  | failed => exact hx

lemma allocInv_stepSys (year : Nat) (b : Bool) (s : AllocSystem)
    (h : AllocInv s) : AllocInv (stepSys year b s) := by
  obtain ⟨db, pl, pr⟩ := s
  obtain ⟨hL, hR, hNe⟩ := h
  cases b with
  | true =>
    simp only [stepSys]
    cases pl with
    | start =>
      cases hgen : generate_os_number year db with
      | some id =>
        simp only [stepAlloc, hgen]
        exact ⟨fun a ha => AllocPhase.noConfusion ha, hR,
          fun a b ha hb => AllocPhase.noConfusion ha⟩
      | none =>
        simp only [stepAlloc, hgen]
        exact ⟨fun a ha => AllocPhase.noConfusion ha, hR,
          fun a b ha hb => AllocPhase.noConfusion ha⟩
    | computed id =>
      simp only [stepAlloc]
      by_cases hid : id ∈ db
      · rw [if_pos hid]
        exact ⟨fun a ha => AllocPhase.noConfusion ha, hR,
          fun a b ha hb => AllocPhase.noConfusion ha⟩
      · rw [if_neg hid]
        refine ⟨?_, ?_, ?_⟩
        · intro a ha
          have : id = a := by
            cases ha
            rfl
          subst this
          exact List.mem_cons_self id db
        · intro b hb
          exact List.mem_cons_of_mem _ (hR b hb)
        · intro a b ha hb hab
          have hida : id = a := by
            cases ha
            rfl
          apply hid
          rw [hida, hab]
          exact hR b hb
    | succeeded a0 => exact ⟨hL, hR, hNe⟩
    | failed => exact ⟨hL, hR, hNe⟩
  | false =>
    simp only [stepSys]
    cases pr with
    | start =>
      cases hgen : generate_os_number year db with
      | some id =>
        simp only [stepAlloc, hgen]
        exact ⟨hL, fun b hb => AllocPhase.noConfusion hb,
          fun a b ha hb => AllocPhase.noConfusion hb⟩
      | none =>
        simp only [stepAlloc, hgen]
        exact ⟨hL, fun b hb => AllocPhase.noConfusion hb,
          fun a b ha hb => AllocPhase.noConfusion hb⟩
    | computed id =>
      simp only [stepAlloc]
      by_cases hid : id ∈ db
      · rw [if_pos hid]
        exact ⟨hL, fun b hb => AllocPhase.noConfusion hb,
          fun a b ha hb => AllocPhase.noConfusion hb⟩
      · rw [if_neg hid]
        refine ⟨?_, ?_, ?_⟩
        · intro a ha
          exact List.mem_cons_of_mem _ (hL a ha)
        · intro b hb
          have : id = b := by
            cases hb
            rfl
          subst this
          exact List.mem_cons_self id db
        · intro a b ha hb hab
          have hidb : id = b := by
            cases hb
            rfl
          apply hid
          rw [hidb, ← hab]
          exact hL a ha
    | succeeded b0 => exact ⟨hL, hR, hNe⟩
    | failed => exact ⟨hL, hR, hNe⟩

lemma runAlloc_inv (year : Nat) (sched : List Bool) :
    ∀ s, AllocInv s → AllocInv (runAlloc year sched s) := by
  induction sched with
  | nil => exact fun s h => h
  | cons b sched ih =>
    intro s h
    exact ih (stepSys year b s) (allocInv_stepSys year b s h)

/-- A discount value of zero yields a zero discount amount whatever the
discount type. -/
lemma discount_amount_of_zero_value (so : ServiceOrderFinancials)
    (h : so.discount_value = 0) : discount_amount so = 0 := by
  unfold discount_amount
  split
  · simp [h]
  · split
    · exact h
    · rfl

end Oficina

namespace Oficina

/-- C1: the discount is applied before the surcharge and both before the
zero floor: the pre-floor total is `(base - discount) * (1 + s/100)` where
`base` is the budget-adjusted base and the discount is taken on that base;
in particular `compute_final_total 100 0 0 "percentage" 10 5 = 94.5`. -/
theorem discount_before_surcharge :
    (∀ so : ServiceOrderFinancials,
      final_before_floor so =
        (adjusted_base so - discount_amount so)
          * (1 + so.surcharge_percentage / 100)) ∧
    compute_final_total 100 0 0 "percentage" 10 5 = 94.5 := by
  constructor
  · intro so
    unfold final_before_floor
    ring
  · simp only [compute_final_total, calculate_totals, final_before_floor,
      discount_amount, adjusted_base]
    simp
    norm_num

/-- C2: `calculate_totals` returns `max final_total 0`, hence is never
negative; in particular `compute_final_total 10 0 0 "fixed" 50 0 = 0`. -/
theorem calculate_totals_nonneg :
    (∀ so : ServiceOrderFinancials,
      calculate_totals so = max (final_before_floor so) 0 ∧
        0 ≤ calculate_totals so) ∧
    compute_final_total 10 0 0 "fixed" 50 0 = 0 := by
  refine ⟨fun so => ⟨rfl, le_max_right _ _⟩, ?_⟩
  simp only [compute_final_total, calculate_totals, final_before_floor,
    discount_amount, adjusted_base]
  simp
  norm_num

/-- C3: the general budget is a floor, never a ceiling: the base used is
`general_budget` exactly when it exceeds `material + labor`, and the
itemized sum otherwise; in particular
`compute_final_total 10 10 50 "none" 0 0 = 50` and
`compute_final_total 40 40 50 "none" 0 0 = 80`. -/
theorem general_budget_is_floor :
    (∀ so : ServiceOrderFinancials,
      (so.general_budget > so.material_total + so.labor_total →
        adjusted_base so = so.general_budget) ∧
      (¬ so.general_budget > so.material_total + so.labor_total →
        adjusted_base so = so.material_total + so.labor_total)) ∧
    compute_final_total 10 10 50 "none" 0 0 = 50 ∧
    compute_final_total 40 40 50 "none" 0 0 = 80 := by
  refine ⟨fun so => ⟨fun h => ?_, fun h => ?_⟩, ?_, ?_⟩
  · simp [adjusted_base, h]
  · simp [adjusted_base, h]
  · simp only [compute_final_total, calculate_totals, final_before_floor,
      discount_amount, adjusted_base]
    simp
    norm_num
  · simp only [compute_final_total, calculate_totals, final_before_floor,
      discount_amount, adjusted_base]
    simp
    norm_num

lemma generate_eq_of_max_parse (y : Nat) (issued : List (List Char))
    (m : List Char) (k : Nat)
    (hmax : maxChars (issued.filter (fun s => startsWith (osStem y) s))
      = some m)
    (hparse : parseNat ((splitDash m).getLastD []) = some k) :
    generate_os_number y issued = some (osStem y ++ pad4 (k + 1)) := by
  simp only [generate_os_number, hmax, hparse]

/-- C3 witness: the budget branch of the theorem at the concrete order
with items 10 + 10 and budget 50. -/
theorem general_budget_is_floor_witness :
    adjusted_base
        { material_total := 10, labor_total := 10, general_budget := 50,
          discount_type := "none", discount_value := 0,
          surcharge_percentage := 0 } = 50 :=
  (general_budget_is_floor.1
    { material_total := 10, labor_total := 10, general_budget := 50,
      discount_type := "none", discount_value := 0,
      surcharge_percentage := 0 }).1 (by norm_num)

/-- C4: for every year and every set of previously issued numbers, the
generator returns `OS-{year}-0001` when no number matches the year's
prefix; otherwise it takes the byte-lexicographically maximum matching
string, adds one to its trailing number, and zero-pads to at least four
digits. -/
theorem generate_os_number_cases (y : Nat) (issued : List (List Char)) :
    ((∀ s ∈ issued, startsWith (osStem y) s = false) →
      generate_os_number y issued = some (osStem y ++ "0001".data)) ∧
    (∀ m, maxChars (issued.filter (fun s => startsWith (osStem y) s))
        = some m →
      (m ∈ issued ∧ startsWith (osStem y) m = true ∧
        ∀ x ∈ issued, startsWith (osStem y) x = true →
          x = m ∨ charsLt x m = true) ∧
      (∀ k, parseNat ((splitDash m).getLastD []) = some k →
        generate_os_number y issued = some (osStem y ++ pad4 (k + 1)) ∧
        4 ≤ (pad4 (k + 1)).length ∧ parseNat (pad4 (k + 1)) = some (k + 1))) := by
  constructor
  · intro h
    have hfilter : issued.filter (fun s => startsWith (osStem y) s) = [] :=
      List.filter_eq_nil_iff.mpr (fun s hs => by rw [h s hs]; simp)
    have hpad : pad4 1 = "0001".data := by decide
    simp only [generate_os_number, hfilter, maxChars, hpad]
  · intro m hmax
    obtain ⟨hmemf, hdomf⟩ := maxChars_spec _ m hmax
    have hmem : m ∈ issued := (List.mem_filter.mp hmemf).1
    have hpre : startsWith (osStem y) m = true := (List.mem_filter.mp hmemf).2
    refine ⟨⟨hmem, hpre, ?_⟩, ?_⟩
    · intro x hx hpx
      exact hdomf x (List.mem_filter.mpr ⟨hx, hpx⟩)
    · intro k hk
      exact ⟨generate_eq_of_max_parse y issued m k hmax hk,
        pad4_length_ge (k + 1), parseNat_pad4 (k + 1)⟩

/-- C4 witness: with `OS-2024-0001` and `OS-2024-0002` issued, the maximum
is `OS-2024-0002`, its trailing number parses as 2, and the generator
returns `OS-2024-` followed by `pad4 3`. -/
theorem generate_os_number_cases_witness :
    generate_os_number 2024 ["OS-2024-0001".data, "OS-2024-0002".data]
        = some (osStem 2024 ++ pad4 3) ∧
      4 ≤ (pad4 3).length ∧ parseNat (pad4 3) = some 3 :=
  ((generate_os_number_cases 2024
      ["OS-2024-0001".data, "OS-2024-0002".data]).2
    ("OS-2024-0002".data) (by decide)).2 2 (by decide)

/-- C5 (amended): within the first 9999 orders of a year the generator is
fresh and increments by one: with `n < 10000` orders issued, the next
number is `OS-{y}-` followed by `pad4 (n+1)` and is not among the issued
ones. (Past that point lexicographic and numeric order part ways; see the
counterexample.) -/
theorem os_number_sequence_invariant (y n : Nat) (hn : n < 10000) :
    generate_os_number y (issuedUpTo y n)
        = some (osStem y ++ pad4 (n + 1)) ∧
      osStem y ++ pad4 (n + 1) ∉ issuedUpTo y n := by
  refine ⟨generate_issuedUpTo y n (by omega), ?_⟩
  intro hmem
  obtain ⟨i, hi, heq⟩ := (mem_issuedUpTo y n _).mp hmem
  have := stem_pad4_inj y (n + 1) (i + 1) heq
  omega

/-- C5 witness: with `OS-2024-0001` and `OS-2024-0002` issued the next
number is `OS-2024-0003`, which is fresh. -/
theorem os_number_sequence_invariant_witness :
    (2 : Nat) < 10000 ∧
      (generate_os_number 2024 (issuedUpTo 2024 2)
          = some (osStem 2024 ++ pad4 3) ∧
        osStem 2024 ++ pad4 3 ∉ issuedUpTo 2024 2) :=
  ⟨by norm_num, os_number_sequence_invariant 2024 2 (by norm_num)⟩

/-- C5 counterexample: after 10000 orders of year 2024 the
lexicographically maximum issued number is `OS-2024-9999`, so the
generator returns `OS-2024-10000` — an identifier already in the issued
set, refuting uniqueness for every issue sequence. -/
theorem generate_duplicate_at_10000 :
    generate_os_number 2024 (issuedUpTo 2024 10000)
        = some ("OS-2024-10000".data) ∧
      "OS-2024-10000".data ∈ issuedUpTo 2024 10000 := by
  constructor
  · have hmax : maxChars (issuedUpTo 2024 10000)
        = some (osStem 2024 ++ pad4 9999) := by
      apply maxChars_eq_of_max
      · exact (mem_issuedUpTo _ _ _).mpr ⟨9998, by norm_num, rfl⟩
      · intro x hx
        obtain ⟨i, hi, rfl⟩ := (mem_issuedUpTo _ _ _).mp hx
        by_cases he : i + 1 = 9999
        · exact Or.inl (by rw [he])
        · by_cases h10 : i + 1 = 10000
          · refine Or.inr ?_
            rw [h10, charsLt_append_left]
            decide
          · exact Or.inr (charsLt_stem_pad4 2024 (i + 1) 9999 (by omega) (by omega))
    have hmax' : maxChars ((issuedUpTo 2024 10000).filter
        (fun s => startsWith (osStem 2024) s))
        = some (osStem 2024 ++ pad4 9999) := by
      rw [filter_issuedUpTo]
      exact hmax
    have hparse : parseNat ((splitDash (osStem 2024 ++ pad4 9999)).getLastD [])
        = some 9999 := by
      rw [trailing_of_osStem]
      exact parseNat_pad4 9999
    have hres := generate_eq_of_max_parse 2024 (issuedUpTo 2024 10000)
      (osStem 2024 ++ pad4 9999) 9999 hmax' hparse
    rw [hres]
    decide
  · exact (mem_issuedUpTo _ _ _).mpr ⟨9999, by norm_num, by decide⟩

/-- C8 counterexample: the stored surcharge is `min(submitted, 5.0)`
(src/routes.py, lines 121 and 209), which does not clamp from below: a
submitted value of -1 is stored as -1, outside `[0, 5]`. -/
theorem stored_surcharge_below_zero :
    ¬ (0 ≤ stored_surcharge (-1) ∧ stored_surcharge (-1) ≤ 5) := by
  unfold stored_surcharge
  rw [min_eq_left (by norm_num : (-1 : ℚ) ≤ 5)]
  norm_num

/-- C8 (amended): the stored surcharge is capped above at 5, and lies in
`[0, 5]` whenever the submitted value is non-negative. -/
theorem stored_surcharge_range (x : ℚ) (hx : 0 ≤ x) :
    0 ≤ stored_surcharge x ∧ stored_surcharge x ≤ 5 :=
  ⟨le_min hx (by norm_num), min_le_right x 5⟩

/-- C8 witness: the amended theorem at submitted value 3. -/
theorem stored_surcharge_range_witness :
    (0 : ℚ) ≤ 3 ∧ (0 ≤ stored_surcharge 3 ∧ stored_surcharge 3 ≤ 5) :=
  ⟨by norm_num, stored_surcharge_range 3 (by norm_num)⟩

/-- C6: with no budget, no discount and no surcharge the total is the item
sum: for non-negative `m` and `l`,
`compute_final_total m l 0 "none" 0 0 = m + l`. -/
theorem no_adjustments_sum (m l : ℚ) (hm : 0 ≤ m) (hl : 0 ≤ l) :
    compute_final_total m l 0 "none" 0 0 = m + l := by
  have hml : 0 ≤ m + l := add_nonneg hm hl
  simp only [compute_final_total, calculate_totals, final_before_floor,
    discount_amount, adjusted_base]
  simp [not_lt.mpr hml, max_eq_left hml]

/-- C6 witness: the theorem at `m = 7`, `l = 3`. -/
theorem no_adjustments_sum_witness :
    compute_final_total 7 3 0 "none" 0 0 = 7 + 3 :=
  no_adjustments_sum 7 3 (by norm_num) (by norm_num)

/-- C7: every `discount_type` outside `{"percentage", "fixed"}` gives a
zero discount amount and behaves exactly like `"none"`, so the calculator
is total over all numeric inputs. -/
theorem unrecognized_discount_type_is_none (so : ServiceOrderFinancials)
    (h1 : so.discount_type ≠ "percentage") (h2 : so.discount_type ≠ "fixed") :
    discount_amount so = 0 ∧
      calculate_totals so =
        calculate_totals { so with discount_type := "none" } := by
  have hso : discount_amount so = 0 := by
    unfold discount_amount
    simp [h1, h2]
  have hnone : discount_amount { so with discount_type := "none" } = 0 := by
    unfold discount_amount
    simp
  refine ⟨hso, ?_⟩
  unfold calculate_totals final_before_floor
  rw [hso, hnone]
  simp [adjusted_base]

/-- C7 witness: the theorem at a concrete order with an unrecognized
discount type. -/
theorem unrecognized_discount_type_is_none_witness :
    discount_amount
        { material_total := 30, labor_total := 12, general_budget := 0,
          discount_type := "bogus", discount_value := 9,
          surcharge_percentage := 2 } = 0 ∧
      calculate_totals
          { material_total := 30, labor_total := 12, general_budget := 0,
            discount_type := "bogus", discount_value := 9,
            surcharge_percentage := 2 } =
        calculate_totals
          { material_total := 30, labor_total := 12, general_budget := 0,
            discount_type := "none", discount_value := 9,
            surcharge_percentage := 2 } :=
  unrecognized_discount_type_is_none _ (by simp) (by simp)

/-- C10: a zero discount value is an identity for the discount step: with
`discount_value = 0` the result is the same for every discount type. -/
theorem zero_discount_value_identity (m l g sp : ℚ) (dt : String) :
    compute_final_total m l g dt 0 sp = compute_final_total m l g "none" 0 sp := by
  unfold compute_final_total calculate_totals final_before_floor
  rw [discount_amount_of_zero_value _ rfl, discount_amount_of_zero_value _ rfl]
  simp [adjusted_base]

/-- C9: in the interleaving model with the database's uniqueness backstop
on `os_number`, two concurrent allocate-and-persist requests for the same
year never both commit with the same order identifier, whatever the
schedule and the initial table. -/
theorem concurrent_allocation_no_duplicate (year : Nat) (sched : List Bool)
    (d0 : List (List Char)) (a b : List Char)
    (hA : (runAlloc year sched ⟨d0, .start, .start⟩).left = .succeeded a)
    (hB : (runAlloc year sched ⟨d0, .start, .start⟩).right = .succeeded b) :
    a ≠ b := by
  have hinv : AllocInv (runAlloc year sched ⟨d0, .start, .start⟩) :=
    runAlloc_inv year sched ⟨d0, .start, .start⟩
      ⟨fun x hx => AllocPhase.noConfusion hx,
        fun x hx => AllocPhase.noConfusion hx,
        fun x y hx hy => AllocPhase.noConfusion hx⟩
  exact hinv.2.2 a b hA hB

/-- C9 witness: the left request runs to completion, then the right; both
commit, with the distinct identifiers OS-2024-0001 and OS-2024-0002. -/
theorem concurrent_allocation_no_duplicate_witness :
    (runAlloc 2024 [true, true, false, false]
        ⟨[], AllocPhase.start, AllocPhase.start⟩).left
        = AllocPhase.succeeded ("OS-2024-0001".data) ∧
      (runAlloc 2024 [true, true, false, false]
          ⟨[], AllocPhase.start, AllocPhase.start⟩).right
          = AllocPhase.succeeded ("OS-2024-0002".data) ∧
      "OS-2024-0001".data ≠ "OS-2024-0002".data :=
  ⟨by decide, by decide,
    concurrent_allocation_no_duplicate 2024 [true, true, false, false] []
      ("OS-2024-0001".data) ("OS-2024-0002".data) (by decide) (by decide)⟩

end Oficina
